import Mathlib

/-!
Shallow embedding of the Ares quantitative engine (`backend/optimizer.py`)
over exact rationals, together with theorems settling the specification's
claims about it.  Machine floats are modelled as exact rationals; the two
irrational inputs the code consumes (`norm.ppf` quantiles and `sqrt 252`)
are passed as parameters constrained to the intervals that contain their
true values.  The QP solves delegated to the `pypfopt` library are modelled
as oracle parameters; post-processing of their output is embedded from the
library's `clean_weights` helper.
-/

namespace Ares

/-- Calendar date reduced to the two fields the backtest code reads:
`pd.Timestamp.year` and `pd.Timestamp.month`. -/
structure Date where
  y : ℕ
  m : ℕ
deriving DecidableEq, Repr

/-- Banker's rounding of a rational to the nearest integer, ties to even —
the rounding used by Python's `round` and `np.round`. -/
def roundHalfEven (x : ℚ) : ℤ :=
  if x - ⌊x⌋ < 1/2 then ⌊x⌋
  else if 1/2 < x - ⌊x⌋ then ⌊x⌋ + 1
  else if ⌊x⌋ % 2 = 0 then ⌊x⌋ else ⌊x⌋ + 1

/-- `round(x, n)` as in Python/numpy: banker's rounding at `n` decimal places. -/
def roundTo (n : ℕ) (x : ℚ) : ℚ := (roundHalfEven (x * 10 ^ n) : ℚ) / 10 ^ n

/-- Dot product of two aligned vectors (`numpy @` on vectors). -/
def dot (xs ys : List ℚ) : ℚ := (List.zipWith (· * ·) xs ys).sum

/-- Minimum of a list (`Series.min`); 0 on the empty list (unused there). -/
def listMin : List ℚ → ℚ
  | [] => 0
  | x :: xs => xs.foldl min x

/-- Maximum of a list (`Series.max`); 0 on the empty list (unused there). -/
def listMax : List ℚ → ℚ
  | [] => 0
  | x :: xs => xs.foldl max x

/-- `np.linspace a b n`: `n` evenly spaced points from `a` to `b` inclusive. -/
def linspace (a b : ℚ) (n : ℕ) : List ℚ :=
  if n = 0 then []
  else if n = 1 then [a]
  else (List.range n).map (fun i : ℕ => a + (b - a) * (i : ℚ) / ((n : ℚ) - 1))

/-- Daily simple returns of one price column: `prices.pct_change().dropna()`. -/
def pct_change : List ℚ → List ℚ
  | a :: b :: rest => (b - a) / a :: pct_change (b :: rest)
  | _ => []

/-! ### Backtest simulator (`run_backtest`) -/

/-- Running compounding `investment * np.cumprod(1 + rets)`: each output entry
is the previous value times `(1 + r)` for that day's portfolio return `r`. -/
def scanMul (v : ℚ) : List ℚ → List ℚ
  | [] => []
  | r :: rest =>
    let v1 := v * (1 + r)
    v1 :: scanMul v1 rest

/-- The DCA loop body of `run_backtest`: at each day after the first, the code
compares the day's month NUMBER (`Timestamp.month`) with the previous day's
month number (`current_month`), adds the contribution when they differ, then
applies that day's return.  `cm` carries the previous day's month number. -/
def dcaLoop (c : ℚ) (V : ℚ) (cm : ℕ) : List (Date × ℚ) → List ℚ
  | [] => []
  | (d, r) :: rest =>
    let V1 := if d.m ≠ cm then V + c else V
    let V2 := V1 * (1 + r)
    V2 :: dcaLoop c V2 d.m rest

/-- Portfolio value path of `run_backtest` (`port_cum`): the input `rows`
pairs each trading day of the return index (`port_returns.index`) with that
day's portfolio return `wᵀr_t` (`port_daily_returns[i]`).  When the monthly
contribution is not positive the path is `investment * cumprod(1 + r)`;
otherwise the DCA loop runs, whose guard `i > 0 and m != current_month`
never fires at `i = 0` because `current_month` is initialised to the first
day's month. -/
def run_backtest_values (investment c : ℚ) (rows : List (Date × ℚ)) : List ℚ :=
  if c ≤ 0 then scanMul investment (rows.map Prod.snd)
  else
    match rows with
    | [] => []
    | (d0, r0) :: rest =>
      let V0 := investment * (1 + r0)
      V0 :: dcaLoop c V0 d0.m rest

/-- Value path that the spec's words describe, for comparison with
`run_backtest_values`: the contribution is added on the first trading day
belonging to a new CALENDAR month — a new `(year, month)` pair — relative to
the previous day, excluding the very first day of the series.  `prev` carries
the previous day's date. -/
def specDcaLoop (c : ℚ) (V : ℚ) (prev : Date) : List (Date × ℚ) → List ℚ
  | [] => []
  | (d, r) :: rest =>
    let V1 := if d ≠ prev then V + c else V
    let V2 := V1 * (1 + r)
    V2 :: specDcaLoop c V2 d rest

/-- Spec-described counterpart of `run_backtest_values` (calendar-month DCA). -/
def spec_backtest_values (investment c : ℚ) (rows : List (Date × ℚ)) : List ℚ :=
  if c ≤ 0 then scanMul investment (rows.map Prod.snd)
  else
    match rows with
    | [] => []
    | (d0, r0) :: rest =>
      let V0 := investment * (1 + r0)
      V0 :: specDcaLoop c V0 d0 rest

/-- Number of distinct calendar months in the return index:
`len(port_returns.index.to_period("M").unique())` — distinct `(year, month)`
pairs. -/
def monthsElapsed (dates : List Date) : ℕ :=
  (dates.map (fun d => (d.y, d.m))).dedup.length

/-- Total invested as computed by `run_backtest`: with a positive monthly
contribution, `investment + monthly_contribution * max(0, n_months - 1)`;
otherwise the investment alone. -/
def total_invested (investment c : ℚ) (dates : List Date) : ℚ :=
  if 0 < c then investment + c * ((max 0 ((monthsElapsed dates : ℤ) - 1) : ℤ) : ℚ)
  else investment

/-- Tail of `np.maximum.accumulate`: running maximum continuing from peak `p`. -/
def peakAux (p : ℚ) : List ℚ → List ℚ
  | [] => []
  | v :: rest =>
    let p1 := max p v
    p1 :: peakAux p1 rest

/-- `np.maximum.accumulate(port_cum)`: running peak over the reported
portfolio values; the first peak is the first reported value. -/
def runningPeak : List ℚ → List ℚ
  | [] => []
  | v :: rest => v :: peakAux v rest

/-- Drawdown series of `run_backtest`:
`(port_cum - peak) / np.where(peak > 0, peak, 1)`. -/
def drawdown_values (vs : List ℚ) : List ℚ :=
  List.zipWith (fun v p => (v - p) / (if 0 < p then p else 1)) vs (runningPeak vs)

/-- `np.min(drawdown)` — the reported maximum drawdown (a fraction).  `np.min`
is undefined on an empty array; 0 here stands for that unused case. -/
def max_drawdown (vs : List ℚ) : ℚ :=
  match drawdown_values vs with
  | [] => 0
  | d :: ds => ds.foldl min d

/-- Drawdown series that the spec's words describe, for comparison: the
running peak `P(t) = max(V(0..t))` INCLUDES the initial value
`V(0) = investment`, so the peaks are `peakAux investment vs`. -/
def spec_drawdown_values (investment : ℚ) (vs : List ℚ) : List ℚ :=
  List.zipWith (fun v p => (v - p) / (if 0 < p then p else 1)) vs (peakAux investment vs)

/-! ### Optimizer core (`optimize_portfolio`) -/

/-- Output of the convex QP solve (`ef.max_sharpe` / `ef.min_volatility`
followed by `ef.portfolio_performance`), which lives in the external
`pypfopt`/`cvxpy` libraries and is treated as an oracle: raw weights aligned
with the ticker list, plus the performance triple (expected return,
volatility, Sharpe ratio). -/
structure SolverOut where
  weights : List ℚ
  exp_return : ℚ
  volatility : ℚ
  sharpe : ℚ
deriving DecidableEq, Repr

/-- Embedding of `pypfopt`'s `BaseOptimizer.clean_weights(cutoff, rounding)`
as called at `optimize_portfolio` (cutoff 0.01, rounding 4): every entry with
absolute value below the cutoff is set to 0 and every entry is rounded; the
helper performs no renormalisation, and keeps one entry per input ticker. -/
def clean_weights (cutoff : ℚ) (w : List ℚ) : List ℚ :=
  w.map (fun x => if |x| < cutoff then 0 else roundTo 4 x)

/-- `STRATEGY_BANDS`: ascending volatility thresholds mapped to labels. -/
def STRATEGY_BANDS : List (ℚ × String) :=
  [(12/100, "Conservative"), (20/100, "Balanced"), (1, "Aggressive")]

/-- `_classify_strategy`: first band whose threshold the annualized
volatility does not exceed; "Aggressive" when none matches. -/
def _classify_strategy (volatility : ℚ) : String :=
  match STRATEGY_BANDS.find? (fun b => volatility ≤ b.1) with
  | some b => b.2
  | none => "Aggressive"

/-- Result record of `optimize_portfolio`; `weights` is the ticker→weight
mapping as an association list in ticker order. -/
structure OptResult where
  weights : List (String × ℚ)
  expected_return : ℚ
  volatility : ℚ
  sharpe_ratio : ℚ
  strategy : String
deriving DecidableEq, Repr

/-- `optimize_portfolio(mu, sigma, risk_tolerance)`.  The max-Sharpe QP with
its L2 penalty (gamma fixed at 0.1), including the min-volatility fallback on
`OptimizationError`, is the external `solver` oracle; note the Python body
never reads `risk_tolerance`.  Post-processing is `clean_weights(0.01, 4)`,
the performance values are rounded to 6 decimals, and the strategy label is
classified from the unrounded volatility. -/
def optimize_portfolio (solver : List ℚ → List (List ℚ) → SolverOut)
    (tickers : List String) (mu : List ℚ) (sigma : List (List ℚ))
    (risk_tolerance : ℚ) : OptResult :=
  let out := solver mu sigma
  { weights := tickers.zip (clean_weights (1/100) out.weights)
    expected_return := roundTo 6 out.exp_return
    volatility := roundTo 6 out.volatility
    sharpe_ratio := roundTo 6 out.sharpe
    strategy := _classify_strategy out.volatility }

/-! ### Efficient frontier (`compute_efficient_frontier`) -/

/-- `compute_efficient_frontier(mu, sigma, n_points)`.  The per-target
minimum-variance sub-problem (`ef.efficient_return` plus
`portfolio_performance`, with `sigma` baked in) is the external `solve`
oracle: `none` models the `except: continue` branch (infeasible target or
numerical failure), `some (ret, vol)` a successful solve.  Successful points
are rounded to 6 decimals and collected in sweep order. -/
def compute_efficient_frontier (solve : ℚ → Option (ℚ × ℚ))
    (mu : List ℚ) (n_points : ℕ) : List (ℚ × ℚ) :=
  (linspace (listMin mu * (105/100)) (listMax mu * (95/100)) n_points).filterMap
    (fun t => (solve t).map (fun p => (roundTo 6 p.1, roundTo 6 p.2)))

/-- One frontier point dominates another when its return is at least as high
and its volatility at most as high, strictly so in at least one coordinate.
Volatility is compared through its square here (see `solveTwoAsset`), which
preserves all comparisons since the square root is monotone. -/
def Dominates (p q : ℚ × ℚ) : Prop :=
  q.1 ≤ p.1 ∧ p.2 ≤ q.2 ∧ (q.1 < p.1 ∨ p.2 < q.2)

instance (p q : ℚ × ℚ) : Decidable (Dominates p q) := by
  unfold Dominates; infer_instance

/-- Modelled from the spec: the minimum-variance sub-problem solver that
`compute_efficient_frontier` delegates to `pypfopt.efficient_return` (code
outside this repository), instantiated at the concrete two-asset universe
mu = (0.08, 0.12), Sigma = identity.  Per the spec each point solves
`min wᵀΣw  s.t. wᵀmu = target, Σw = 1, w ≥ 0`; with two assets the
constraints already determine `w₂ = (target - 0.08)/0.04`, feasible exactly
when 0.08 ≤ target ≤ 0.12, and the unique feasible point is trivially the
minimiser.  The volatility slot reports the variance `w₁² + w₂²`: the true
volatility is its irrational square root, and the monotone square root
changes no ordering or domination comparison. -/
def solveTwoAsset (t : ℚ) : Option (ℚ × ℚ) :=
  if 2/25 ≤ t ∧ t ≤ 3/25 then
    let w2 := (t - 2/25) / (1/25)
    some (t, (1 - w2) ^ 2 + w2 ^ 2)
  else none

/-- Modelled from the spec: the same minimum-variance sub-problem solver as
`solveTwoAsset` (pypfopt code outside this repository, modelled from the
spec's `min wᵀΣw s.t. wᵀmu = target, Σw = 1, w ≥ 0`), instantiated at the
two-asset universe mu = (0.095, 0.10), Sigma = identity: feasible exactly
when 0.095 ≤ target ≤ 0.10, with the constraints determining the unique
weights `w₂ = (target − 0.095)/0.005` and variance `(1 − w₂)² + w₂²`
(volatility again reported as its square, see `solveTwoAsset`). -/
def solveTwoAssetDesc (t : ℚ) : Option (ℚ × ℚ) :=
  if 19/200 ≤ t ∧ t ≤ 1/10 then
    let w2 := (t - 19/200) / (1/200)
    some (t, (1 - w2) ^ 2 + w2 ^ 2)
  else none

/-! ### Value at Risk (`compute_var`) -/

/-- `compute_var(expected_return, volatility, confidence, investment)`.
The two irrational quantities the Python code uses are parameters here:
`z = norm.ppf(1 - confidence)` and `sqrtT = np.sqrt(252)`; theorems about
this definition constrain them to intervals containing their true values.
Returns the pair `(daily_var, annual_var)`, each rounded to 2 decimals. -/
def compute_var (z sqrtT : ℚ)
    (expected_return volatility investment : ℚ) : ℚ × ℚ :=
  let mu_daily := expected_return / 252
  let sigma_daily := volatility / sqrtT
  let daily_var := investment * |mu_daily + z * sigma_daily|
  let annual_var := investment * |expected_return + z * volatility|
  (roundTo 2 daily_var, roundTo 2 annual_var)

/-! ### Contribution to risk (`compute_contribution_to_risk`) -/

/-- Arithmetic mean of a list (`Series.mean`). -/
def mean (xs : List ℚ) : ℚ := xs.sum / xs.length

/-- `returns = prices.pct_change().dropna()`: every price column becomes its
daily simple-return series. -/
def retsOf (cols : List (String × List ℚ)) : List (String × List ℚ) :=
  cols.map (fun c => (c.1, pct_change c.2))

/-- Sample covariance with `ddof = 1`, as `DataFrame.cov()` computes it. -/
def covar (xs ys : List ℚ) : ℚ :=
  (List.zipWith (fun a b => (a - mean xs) * (b - mean ys)) xs ys).sum
    / ((xs.length : ℚ) - 1)

/-- Held columns: `[t for t in returns.columns if t in weights]`, keeping the
column order and pairing each ticker with its return series. -/
def heldCols (rets : List (String × List ℚ)) (weights : List (String × ℚ)) :
    List (String × List ℚ) :=
  rets.filter (fun c => (weights.lookup c.1).isSome)

/-- Weight vector over the held columns: `weights.get(t, 0)` per held `t`. -/
def heldW (rets : List (String × List ℚ)) (weights : List (String × ℚ)) : List ℚ :=
  (heldCols rets weights).map (fun c => (weights.lookup c.1).getD 0)

/-- Annualized sample covariance matrix restricted to the held columns:
`returns.cov() * 252` at the held tickers, as a list of rows. -/
def covHeld (rets : List (String × List ℚ)) (weights : List (String × ℚ)) :
    List (List ℚ) :=
  (heldCols rets weights).map
    (fun ci => (heldCols rets weights).map (fun cj => 252 * covar ci.2 cj.2))

/-- `marginal = cov_sub @ w_arr`. -/
def marginalRisk (rets : List (String × List ℚ)) (weights : List (String × ℚ)) :
    List ℚ :=
  (covHeld rets weights).map (fun row => dot row (heldW rets weights))

/-- `port_var = w_arr @ cov_sub @ w_arr`, written as `w ⬝ (cov @ w)` — equal
to the code's left-grouped product by exchanging the two summation indices. -/
def portVar (rets : List (String × List ℚ)) (weights : List (String × ℚ)) : ℚ :=
  dot (heldW rets weights) (marginalRisk rets weights)

/-- The divisor `port_vol ** 2` of the contribution formula, where the code
sets `port_vol = np.sqrt(port_var) if port_var > 0 else 1e-8`; only its
square is ever used, so it is embedded as `port_var` itself when positive and
`(1e-8)² = 1e-16` otherwise. -/
def portVolSq (rets : List (String × List ℚ)) (weights : List (String × ℚ)) : ℚ :=
  if 0 < portVar rets weights then portVar rets weights else (1 / 10 ^ 8) ^ 2

/-- Unrounded per-ticker contributions
`(w_arr * marginal) / port_vol**2 * 100` (the dead `else np.zeros` branch of
the Python line is unreachable because `port_vol` is always positive). -/
def contribRaw (rets : List (String × List ℚ)) (weights : List (String × ℚ)) :
    List ℚ :=
  List.zipWith (fun wi mi => wi * mi / portVolSq rets weights * 100)
    (heldW rets weights) (marginalRisk rets weights)

/-- `compute_contribution_to_risk(prices, weights)`: columns of prices become
daily returns; with fewer than 2 held tickers each held ticker gets exactly
100; otherwise each held ticker gets its Euler contribution rounded to 2
decimals. -/
def compute_contribution_to_risk (cols : List (String × List ℚ))
    (weights : List (String × ℚ)) : List (String × ℚ) :=
  if (heldCols (retsOf cols) weights).length < 2 then
    (heldCols (retsOf cols) weights).map (fun c => (c.1, 100))
  else
    List.zipWith (fun c x => (c.1, roundTo 2 x)) (heldCols (retsOf cols) weights)
      (contribRaw (retsOf cols) weights)

/-! ### Data cleaning (`fetch_price_history`) and orchestration -/

/-- Forward fill of one price column, carrying the last seen value. -/
def ffillCol (last : Option ℚ) : List (Option ℚ) → List (Option ℚ)
  | [] => []
  | some v :: rest => some v :: ffillCol (some v) rest
  | none :: rest => last :: ffillCol last rest

/-- Backward fill: forward fill of the reversed column. -/
def bfillCol (xs : List (Option ℚ)) : List (Option ℚ) :=
  (ffillCol none xs.reverse).reverse

/-- Columns surviving `prices.dropna(axis=1, thresh=int(0.80 * len(prices)))`:
a column is kept when its non-missing count reaches the threshold.  For every
row count `n`, Python's `int(0.80 * n)` equals `4 * n / 5` in integer
division: the double nearest to 0.80 exceeds 4/5 by under one part in 10¹⁶,
so the product never crosses the next integer before truncation. -/
def keptCols (nRows : ℕ) (cols : List (String × List (Option ℚ))) :
    List (String × List (Option ℚ)) :=
  cols.filter (fun c => 4 * nRows / 5 ≤ (c.2.filter Option.isSome).length)

/-- Cleaning stage of `fetch_price_history` (its lines after the download):
drop incomplete columns, forward- then back-fill the gaps, and fail with the
code's `ValueError` message when fewer than 2 tickers survive. -/
def fetch_clean (nRows : ℕ) (cols : List (String × List (Option ℚ))) :
    Except String (List (String × List (Option ℚ))) :=
  let kept := keptCols nRows cols
  let filled := kept.map (fun c => (c.1, bfillCol (ffillCol none c.2)))
  if filled.length < 2 then
    .error ("Only " ++ toString filled.length ++
      " tickers survived data cleaning. Need at least 2 valid tickers for optimization.")
  else .ok filled

/-- `generate_portfolio`'s control flow around the fetch: every stage after
`fetch_price_history` (parameter estimation, optimization, frontier, VaR,
backtest, risk details) is the `downstream` continuation, which runs only on
a successfully cleaned price table — a raised `ValueError` propagates as the
`Except.error` and reaches no later stage. -/
def generate_portfolio {α : Type} (downstream : List (String × List (Option ℚ)) → α)
    (nRows : ℕ) (cols : List (String × List (Option ℚ))) : Except String α :=
  (fetch_clean nRows cols).map downstream

/-! ### Helper lemmas on rounding -/

theorem abs_roundHalfEven_sub (x : ℚ) : |(roundHalfEven x : ℚ) - x| ≤ 1/2 := by
  unfold roundHalfEven
  have h0 : ((⌊x⌋ : ℤ) : ℚ) ≤ x := Int.floor_le x
  have h1 : x < (⌊x⌋ : ℤ) + 1 := Int.lt_floor_add_one x
  split_ifs with hlt hgt hev <;>
    · rw [abs_le]
      constructor <;> push_cast <;> linarith

theorem abs_roundTo_sub (n : ℕ) (x : ℚ) : |roundTo n x - x| ≤ 1 / (2 * 10 ^ n) := by
  unfold roundTo
  have hpos : (0 : ℚ) < 10 ^ n := by positivity
  have key : (roundHalfEven (x * 10 ^ n) : ℚ) / 10 ^ n - x
      = ((roundHalfEven (x * 10 ^ n) : ℚ) - x * 10 ^ n) / 10 ^ n := by
    field_simp
    ring
  rw [key, abs_div, abs_of_pos hpos, div_le_iff₀ hpos]
  have h := abs_roundHalfEven_sub (x * 10 ^ n)
  calc |(roundHalfEven (x * 10 ^ n) : ℚ) - x * 10 ^ n| ≤ 1/2 := h
    _ = 1 / (2 * 10 ^ n) * 10 ^ n := by field_simp

theorem roundHalfEven_nonneg (x : ℚ) (h : 0 ≤ x) : 0 ≤ roundHalfEven x := by
  unfold roundHalfEven
  have h0 : 0 ≤ ⌊x⌋ := Int.floor_nonneg.mpr h
  split_ifs <;> omega

theorem roundHalfEven_le_int (x : ℚ) (n : ℤ) (h : x ≤ n) : roundHalfEven x ≤ n := by
  unfold roundHalfEven
  have h0 : ⌊x⌋ ≤ n := by
    have := Int.floor_le_floor (α := ℚ) h
    rwa [Int.floor_intCast] at this
  have hfl : ((⌊x⌋ : ℤ) : ℚ) ≤ x := Int.floor_le x
  split_ifs with hlt hgt hev
  · exact h0
  · -- here 1/2 < x - ⌊x⌋, so ⌊x⌋ < n
    have : ((⌊x⌋ : ℤ) : ℚ) + 1/2 < x := by linarith
    have hx : ((⌊x⌋ : ℤ) : ℚ) < (n : ℚ) := by linarith
    have : ⌊x⌋ < n := by exact_mod_cast hx
    omega
  · exact h0
  · -- tie case: x = ⌊x⌋ + 1/2 ≤ n forces ⌊x⌋ < n
    have heq : x - ⌊x⌋ = 1/2 := le_antisymm (not_lt.mp hgt) (not_lt.mp hlt)
    have hx : ((⌊x⌋ : ℤ) : ℚ) + 1/2 ≤ (n : ℚ) := by linarith
    have : ((⌊x⌋ : ℤ) : ℚ) < (n : ℚ) := by linarith
    have : ⌊x⌋ < n := by exact_mod_cast this
    omega

theorem roundTo_nonneg (n : ℕ) (x : ℚ) (h : 0 ≤ x) : 0 ≤ roundTo n x := by
  unfold roundTo
  have : (0 : ℤ) ≤ roundHalfEven (x * 10 ^ n) :=
    roundHalfEven_nonneg _ (by positivity)
  positivity

theorem roundTo_le_one (n : ℕ) (x : ℚ) (h : x ≤ 1) : roundTo n x ≤ 1 := by
  unfold roundTo
  have hpos : (0 : ℚ) < 10 ^ n := by positivity
  have hle : x * 10 ^ n ≤ ((10 ^ n : ℤ) : ℚ) := by
    push_cast
    nlinarith
  have h2 : roundHalfEven (x * 10 ^ n) ≤ (10 ^ n : ℤ) :=
    roundHalfEven_le_int _ _ hle
  rw [div_le_one hpos]
  exact_mod_cast h2

theorem roundHalfEven_mono (x y : ℚ) (h : x ≤ y) :
    roundHalfEven x ≤ roundHalfEven y := by
  by_contra hcon
  push_neg at hcon
  have hstep : roundHalfEven y + 1 ≤ roundHalfEven x := hcon
  have hx := abs_le.mp (abs_roundHalfEven_sub x)
  have hy := abs_le.mp (abs_roundHalfEven_sub y)
  have hq : ((roundHalfEven y : ℤ) : ℚ) + 1 ≤ ((roundHalfEven x : ℤ) : ℚ) := by
    exact_mod_cast hstep
  have hxy : x = y := by linarith
  subst hxy
  omega

theorem roundTo_mono (n : ℕ) (x y : ℚ) (h : x ≤ y) : roundTo n x ≤ roundTo n y := by
  unfold roundTo
  have hpos : (0 : ℚ) < 10 ^ n := by positivity
  have hm := roundHalfEven_mono (x * 10 ^ n) (y * 10 ^ n) (by nlinarith)
  have hc : ((roundHalfEven (x * 10 ^ n) : ℤ) : ℚ) ≤ roundHalfEven (y * 10 ^ n) := by
    exact_mod_cast hm
  gcongr

/-! ### Helper lemmas on lists -/

theorem sum_map_abs_le (f : ℚ → ℚ) (b : ℚ) :
    ∀ l : List ℚ, (∀ x ∈ l, |f x - x| ≤ b) →
      |(l.map f).sum - l.sum| ≤ l.length * b
  | [], _ => by simp
  | a :: l, h => by
    have hrec := sum_map_abs_le f b l (fun x hx => h x (List.mem_cons_of_mem a hx))
    have ha := h a (List.mem_cons_self a l)
    have hsplit : ((a :: l).map f).sum - (a :: l).sum
        = (f a - a) + ((l.map f).sum - l.sum) := by
      simp
      ring
    rw [hsplit]
    calc |(f a - a) + ((l.map f).sum - l.sum)|
        ≤ |f a - a| + |(l.map f).sum - l.sum| := abs_add _ _
      _ ≤ b + l.length * b := add_le_add ha hrec
      _ = (a :: l).length * b := by
          simp [List.length_cons]
          push_cast
          ring

theorem zipWith_scaled_sum (p : ℚ) :
    ∀ w m : List ℚ,
      (List.zipWith (fun wi mi => wi * mi / p * 100) w m).sum = dot w m / p * 100
  | [], _ => by simp [dot]
  | _ :: _, [] => by simp [dot]
  | a :: w, c :: m => by
    have := zipWith_scaled_sum p w m
    simp only [List.zipWith_cons_cons, List.sum_cons, dot] at *
    rw [this]
    ring

theorem zipWith_snd_map (g : ℚ → ℚ) :
    ∀ (l1 : List (String × List ℚ)) (l2 : List ℚ), l1.length = l2.length →
      List.zipWith (fun c x => g x) l1 l2 = l2.map g
  | [], [], _ => rfl
  | [], _ :: _, h => by simp at h
  | _ :: _, [], h => by simp at h
  | a :: l1, b :: l2, h => by
    simp only [List.zipWith_cons_cons, List.map_cons]
    rw [zipWith_snd_map g l1 l2 (by simpa using h)]

theorem foldl_min_le_init : ∀ (l : List ℚ) (a : ℚ), l.foldl min a ≤ a
  | [], a => le_refl a
  | b :: l, a =>
    le_trans (foldl_min_le_init l (min a b)) (min_le_left a b)

theorem foldl_min_le_mem :
    ∀ (l : List ℚ) (a x : ℚ), x ∈ l → l.foldl min a ≤ x
  | [], _, _, hx => by simp at hx
  | b :: l, a, x, hx => by
    rcases List.mem_cons.mp hx with h | h
    · subst h
      exact le_trans (foldl_min_le_init l (min a x)) (min_le_right a x)
    · exact foldl_min_le_mem l (min a b) x h

theorem foldl_min_mem :
    ∀ (l : List ℚ) (a : ℚ), l.foldl min a = a ∨ l.foldl min a ∈ l
  | [], a => Or.inl rfl
  | b :: l, a => by
    rcases foldl_min_mem l (min a b) with h | h
    · rcases min_choice a b with hc | hc
      · exact Or.inl (by rw [List.foldl_cons, h, hc])
      · refine Or.inr (List.mem_cons.mpr (Or.inl ?_))
        rw [List.foldl_cons, h, hc]
    · exact Or.inr (List.mem_cons.mpr (Or.inr h))

theorem lookup_isSome_of_mem_keys :
    ∀ (l : List (String × ℚ)) (t : String), t ∈ l.map Prod.fst →
      (l.lookup t).isSome = true
  | [], t, ht => by simp at ht
  | (k, v) :: l, t, ht => by
    by_cases heq : t = k
    · subst heq
      simp [List.lookup]
    · have : t ∈ l.map Prod.fst := by
        rcases List.mem_cons.mp ht with h | h
        · exact absurd h heq
        · exact h
      have hbeq : (t == k) = false := beq_eq_false_iff_ne.mpr heq
      simp only [List.lookup, hbeq]
      exact lookup_isSome_of_mem_keys l t this

/-! ### Helper lemmas on the backtest loops -/

theorem scanMul_getD :
    ∀ (rets : List ℚ) (v : ℚ) (i : ℕ), i < rets.length →
      (scanMul v rets).getD i 0 =
        v * ((rets.take (i + 1)).map (fun r => 1 + r)).prod
  | [], _, i, h => by simp at h
  | r :: rest, v, 0, _ => by
    simp [scanMul, mul_comm]
  | r :: rest, v, i + 1, h => by
    have hlt : i < rest.length := by simpa using h
    have := scanMul_getD rest (v * (1 + r)) i hlt
    simp only [scanMul, List.getD_cons_succ, List.take_succ_cons, List.map_cons,
      List.prod_cons]
    rw [this]
    ring

theorem dcaLoop_eq_spec :
    ∀ (rows : List (Date × ℚ)) (c V : ℚ) (prev : Date),
      List.Chain (fun a b => b.m = a.m → b.y = a.y) prev (rows.map Prod.fst) →
      dcaLoop c V prev.m rows = specDcaLoop c V prev rows
  | [], _, _, _, _ => rfl
  | (d, r) :: rest, c, V, prev, hch => by
    simp only [List.map_cons, List.chain_cons] at hch
    obtain ⟨hhead, htail⟩ := hch
    have hcond : (d ≠ prev) = (d.m ≠ prev.m) := by
      by_cases hm : d.m = prev.m
      · have hy : d.y = prev.y := hhead hm
        have : d = prev := by
          cases d; cases prev
          simp_all
        simp [this, hm]
      · have : d ≠ prev := fun he => hm (by rw [he])
        simp [this, hm]
    simp only [dcaLoop, specDcaLoop, hcond]
    rw [dcaLoop_eq_spec rest c _ d htail]

theorem mem_zip_peakAux_nonpos :
    ∀ (vs : List ℚ) (p : ℚ) (x : ℚ),
      x ∈ List.zipWith (fun v q => (v - q) / (if 0 < q then q else 1)) vs (peakAux p vs) →
      x ≤ 0
  | [], _, _, hx => by simp [peakAux] at hx
  | v :: rest, p, x, hx => by
    simp only [peakAux, List.zipWith_cons_cons, List.mem_cons] at hx
    rcases hx with h | h
    · subst h
      have hnum : v - max p v ≤ 0 := sub_nonpos.mpr (le_max_right p v)
      by_cases hq : 0 < max p v
      · simp only [if_pos hq]
        exact div_nonpos_iff.mpr (Or.inr ⟨hnum, le_of_lt hq⟩)
      · simp only [if_neg hq]
        exact div_nonpos_iff.mpr (Or.inr ⟨hnum, by norm_num⟩)
    · exact mem_zip_peakAux_nonpos rest (max p v) x h

theorem drawdown_values_nonpos (vs : List ℚ) :
    ∀ x ∈ drawdown_values vs, x ≤ 0 := by
  intro x hx
  match vs with
  | [] => simp [drawdown_values, runningPeak] at hx
  | v :: rest =>
    simp only [drawdown_values, runningPeak, List.zipWith_cons_cons,
      List.mem_cons] at hx
    rcases hx with h | h
    · subst h
      simp
    · exact mem_zip_peakAux_nonpos rest v x h

/-! ### Claim C2 -/

/-- C2 (counterexample): the DCA loop of `run_backtest` compares only the
month number `Timestamp.month`, so on a series whose consecutive trading
days are a year apart in the same month — (2020-03, then 2021-03) — the
first day of the new calendar month receives no contribution, while the
claim's rule adds the contribution there.  With zero returns the code
reports [100, 100]; the claimed stepping yields [100, 1100]. -/
theorem c2_counterexample :
    run_backtest_values 100 1000 [(⟨2020, 3⟩, 0), (⟨2021, 3⟩, 0)] = [100, 100] ∧
    spec_backtest_values 100 1000 [(⟨2020, 3⟩, 0), (⟨2021, 3⟩, 0)] = [100, 1100] ∧
    ¬ run_backtest_values 100 1000 [(⟨2020, 3⟩, 0), (⟨2021, 3⟩, 0)] =
        spec_backtest_values 100 1000 [(⟨2020, 3⟩, 0), (⟨2021, 3⟩, 0)] := by
  refine ⟨?_, ?_, ?_⟩ <;>
    norm_num [run_backtest_values, spec_backtest_values, dcaLoop, specDcaLoop]

/-- C2 (amended): with monthly contribution 0 every reported portfolio value
equals the investment times the running product of `(1 + wᵀr_t)`.  With a
positive contribution the code adds it exactly on days (other than the first)
whose month NUMBER differs from the previous day's; whenever no two
consecutive trading days share the month number across different years, this
coincides with the claim's first-trading-day-of-a-new-calendar-month rule. -/
theorem c2_backtest_step (investment c : ℚ) (rows : List (Date × ℚ)) :
    (c = 0 → ∀ i, i < rows.length →
      (run_backtest_values investment c rows).getD i 0 =
        investment * (((rows.map Prod.snd).take (i + 1)).map (fun r => 1 + r)).prod) ∧
    (0 < c → ∀ d0 r0 rest, rows = (d0, r0) :: rest →
      List.Chain (fun a b : Date => b.m = a.m → b.y = a.y) d0 (rest.map Prod.fst) →
      run_backtest_values investment c rows = spec_backtest_values investment c rows) := by
  constructor
  · intro hc i hi
    subst hc
    unfold run_backtest_values
    rw [if_pos (le_refl (0 : ℚ))]
    exact scanMul_getD (rows.map Prod.snd) investment i (by simpa using hi)
  · intro hc d0 r0 rest hrows hch
    subst hrows
    have hnle : ¬ c ≤ 0 := not_le.mpr hc
    unfold run_backtest_values spec_backtest_values
    rw [if_neg hnle, if_neg hnle]
    show (investment * (1 + r0)) :: dcaLoop c (investment * (1 + r0)) d0.m rest =
      (investment * (1 + r0)) :: specDcaLoop c (investment * (1 + r0)) d0 rest
    exact congrArg _ (dcaLoop_eq_spec rest c (investment * (1 + r0)) d0 hch)

/-- C2 (witness): the amended theorem applied to concrete inputs — a
two-day zero-return series at contribution 0, and a January→February 2020
series at contribution 1000 where both stepping rules agree. -/
theorem c2_backtest_step_witness :
    (run_backtest_values 100 0 [(⟨2020, 1⟩, 1), (⟨2020, 2⟩, 0)]).getD 1 0 =
      100 * ((([(1 : ℚ), 0].take 2).map (fun r => 1 + r)).prod) ∧
    run_backtest_values 100 1000 [(⟨2020, 1⟩, 1), (⟨2020, 2⟩, 0)] =
      spec_backtest_values 100 1000 [(⟨2020, 1⟩, 1), (⟨2020, 2⟩, 0)] := by
  constructor
  · exact (c2_backtest_step 100 0 [(⟨2020, 1⟩, 1), (⟨2020, 2⟩, 0)]).1 rfl 1
      (by norm_num)
  · exact (c2_backtest_step 100 1000 [(⟨2020, 1⟩, 1), (⟨2020, 2⟩, 0)]).2 (by norm_num)
      ⟨2020, 1⟩ 1 [(⟨2020, 2⟩, 0)] rfl
      (List.Chain.cons (fun _ => rfl) List.Chain.nil)

/-! ### Claim C3 -/

/-- C3: for every monthly contribution `c ≥ 0` the reported total invested
equals `investment + c * max(0, months_elapsed - 1)`, where `months_elapsed`
counts the distinct calendar months of the series; with `c = 0` it collapses
to the investment exactly. -/
theorem c3_total_invested (investment c : ℚ) (dates : List Date) (h : 0 ≤ c) :
    total_invested investment c dates =
      investment + c * ((max 0 ((monthsElapsed dates : ℤ) - 1) : ℤ) : ℚ) := by
  rcases lt_or_eq_of_le h with hpos | hzero
  · rw [total_invested, if_pos hpos]
  · rw [total_invested, ← hzero]
    simp

/-- C3 (witness): contribution 1000 over a series spanning the 12 calendar
months of 2020 gives total invested `5000 + 1000 × 11 = 16000`. -/
theorem c3_total_invested_witness :
    total_invested 5000 1000 ((List.range 12).map (fun i => ⟨2020, i + 1⟩)) = 16000 := by
  have h := c3_total_invested 5000 1000 ((List.range 12).map (fun i => ⟨2020, i + 1⟩))
    (by norm_num)
  rw [h]
  have hm : monthsElapsed ((List.range 12).map (fun i => ⟨2020, i + 1⟩)) = 12 := by
    decide
  rw [hm]
  norm_num

/-! ### Claim C4 -/

/-- C4 (counterexample): the running peak of `run_backtest` accumulates over
the reported values `port_cum` only and does not include the initial value
`V(0) = investment`.  On a one-day series with return −50% the code reports
drawdown `[0]` and max drawdown 0, while the claim's peak `max(V(0..t))`
gives drawdown −1/2. -/
theorem c4_counterexample :
    run_backtest_values 100 0 [(⟨2020, 1⟩, -(1/2))] = [50] ∧
    drawdown_values [50] = [0] ∧
    max_drawdown [50] = 0 ∧
    spec_drawdown_values 100 [50] = [-(1/2)] ∧
    ¬ drawdown_values [50] = spec_drawdown_values 100 [50] := by
  refine ⟨?_, ?_, ?_, ?_, ?_⟩ <;>
    norm_num [run_backtest_values, scanMul, drawdown_values, runningPeak, peakAux,
      max_drawdown, spec_drawdown_values]

/-- C4 (amended): with the running peak taken over the reported values only
(`P(t) = max(V(1..t))`, excluding the initial investment), each drawdown is
`(V(t) − P(t))` divided by the peak — the division guarded by divisor 1 when
the peak is not positive — every drawdown is non-positive, and the reported
max drawdown is their minimum, hence also non-positive. -/
theorem c4_drawdown (vs : List ℚ) (h : vs ≠ []) :
    drawdown_values vs =
      List.zipWith (fun v p => (v - p) / (if 0 < p then p else 1)) vs (runningPeak vs) ∧
    (∀ x ∈ drawdown_values vs, x ≤ 0) ∧
    max_drawdown vs ≤ 0 ∧
    (∀ x ∈ drawdown_values vs, max_drawdown vs ≤ x) ∧
    max_drawdown vs ∈ drawdown_values vs := by
  have hne : drawdown_values vs ≠ [] := by
    match vs with
    | [] => exact absurd rfl h
    | v :: rest => simp [drawdown_values, runningPeak]
  obtain ⟨d, ds, hdd⟩ : ∃ d ds, drawdown_values vs = d :: ds := by
    match hv : drawdown_values vs with
    | [] => exact absurd hv hne
    | d :: ds => exact ⟨d, ds, rfl⟩
  have hmd : max_drawdown vs = ds.foldl min d := by
    unfold max_drawdown
    rw [hdd]
  refine ⟨rfl, drawdown_values_nonpos vs, ?_, ?_, ?_⟩
  · have hd0 : d ≤ 0 := drawdown_values_nonpos vs d (by
      rw [hdd]; exact List.mem_cons_self d ds)
    rw [hmd]
    exact le_trans (foldl_min_le_init ds d) hd0
  · intro x hx
    rw [hdd] at hx
    rw [hmd]
    rcases List.mem_cons.mp hx with h1 | h1
    · subst h1
      exact foldl_min_le_init ds x
    · exact foldl_min_le_mem ds d x h1
  · rw [hmd, hdd]
    rcases foldl_min_mem ds d with h1 | h1
    · rw [h1]
      exact List.mem_cons_self d ds
    · exact List.mem_cons_of_mem d h1

/-- C4 (witness): the amended drawdown facts evaluated on the concrete value
path [50, 100, 80]: drawdowns [0, 0, −1/5] and max drawdown −1/5. -/
theorem c4_drawdown_witness :
    drawdown_values [50, 100, 80] = [0, 0, -(1/5)] ∧
    max_drawdown [50, 100, 80] ≤ 0 ∧
    max_drawdown [50, 100, 80] ∈ drawdown_values [50, 100, 80] := by
  have h := c4_drawdown [50, 100, 80] (by simp)
  refine ⟨?_, h.2.2.1, h.2.2.2.2⟩
  norm_num [drawdown_values, runningPeak, peakAux]

/-! ### Claim C1 -/

/-- C1 (counterexample): `clean_weights` zeroes sub-cutoff weights and
rounds, but performs no renormalisation.  A valid solver output
`[0.995, 0.005]` — non-negative, within bounds, summing to exactly 1 —
is post-processed to `[0.995, 0]`, whose sum 0.995 is neither exactly 1 nor
within `1e-3` of 1. -/
theorem c1_counterexample :
    ([199/200, (1/200 : ℚ)]).sum = 1 ∧
    ((optimize_portfolio (fun _ _ => ⟨[199/200, 1/200], 1/10, 3/20, 1/2⟩)
        ["A", "B"] [1/10, 1/10] [[1, 0], [0, 1]] (1/2)).weights.map Prod.snd)
      = [199/200, 0] ∧
    ¬ |([199/200, (0 : ℚ)]).sum - 1| ≤ 1/1000 ∧
    ¬ ([199/200, (0 : ℚ)]).sum = 1 := by
  refine ⟨by norm_num, ?_, ?_, by norm_num⟩
  · norm_num [optimize_portfolio, clean_weights, roundTo, roundHalfEven,
      abs_of_nonneg, List.zip]
  · intro hcon
    have hsum : ([199/200, (0 : ℚ)]).sum - 1 = -(1/200) := by norm_num
    rw [hsum, abs_neg, abs_of_nonneg (by norm_num : (0 : ℚ) ≤ 1/200)] at hcon
    norm_num at hcon

/-- C1 (amended): for every solver output with entries in [0, 1] summing
to 1, the post-processing zeroes every weight below the 1% cutoff and rounds
the rest to 4 decimals WITHOUT renormalising; the cleaned weights remain in
[0, 1] and their sum differs from 1 by at most `N × 0.01` (cutoff loss plus
rounding), not necessarily by less than `1e-3`. -/
theorem c1_weight_postprocessing (w : List ℚ)
    (h0 : ∀ x ∈ w, 0 ≤ x ∧ x ≤ 1) (h1 : w.sum = 1) :
    clean_weights (1/100) w
      = w.map (fun x => if |x| < 1/100 then 0 else roundTo 4 x) ∧
    (∀ x ∈ clean_weights (1/100) w, 0 ≤ x ∧ x ≤ 1) ∧
    |(clean_weights (1/100) w).sum - 1| ≤ w.length * (1/100) := by
  refine ⟨rfl, ?_, ?_⟩
  · intro x hx
    rcases List.mem_map.mp hx with ⟨a, ha, hfa⟩
    rcases h0 a ha with ⟨ha0, ha1⟩
    rw [← hfa]
    by_cases hc : |a| < 1/100
    · rw [if_pos hc]
      exact ⟨le_refl 0, by norm_num⟩
    · rw [if_neg hc]
      exact ⟨roundTo_nonneg 4 a ha0, roundTo_le_one 4 a ha1⟩
  · have hb : ∀ x ∈ w, |(if |x| < 1/100 then 0 else roundTo 4 x) - x| ≤ 1/100 := by
      intro x hx
      by_cases hc : |x| < 1/100
      · rw [if_pos hc]
        calc |(0 : ℚ) - x| = |x| := by rw [zero_sub, abs_neg]
          _ ≤ 1/100 := le_of_lt hc
      · rw [if_neg hc]
        have := abs_roundTo_sub 4 x
        have h4 : (1 : ℚ) / (2 * 10 ^ 4) ≤ 1/100 := by norm_num
        linarith
    have hs := sum_map_abs_le _ (1/100) w hb
    rw [h1] at hs
    simpa [clean_weights] using hs

/-- C1 (witness): the amended post-processing facts at the solver output
`[1/2, 1/2]`. -/
theorem c1_weight_postprocessing_witness :
    (∀ x ∈ clean_weights (1/100) [1/2, 1/2], 0 ≤ x ∧ x ≤ 1) ∧
    |(clean_weights (1/100) [1/2, (1/2 : ℚ)]).sum - 1|
      ≤ ([1/2, (1/2 : ℚ)] : List ℚ).length * (1/100) := by
  have h := c1_weight_postprocessing [1/2, 1/2]
    (by intro x hx; rcases List.mem_cons.mp hx with h | h
        · subst h; norm_num
        · rcases List.mem_cons.mp h with h | h
          · subst h; norm_num
          · simp at h)
    (by norm_num)
  exact ⟨h.2.1, h.2.2⟩

/-! ### Claim C8 -/

/-- C8: the result of `optimize_portfolio` — weights, expected return,
volatility, Sharpe ratio and strategy label — depends only on `(mu, sigma)`
(through the solver) and never on the stated risk tolerance: the Python body
never reads the `risk_tolerance` parameter, so any two tolerance values in
[0, 1] give identical results. -/
theorem c8_risk_tolerance_independent
    (solver : List ℚ → List (List ℚ) → SolverOut)
    (tickers : List String) (mu : List ℚ) (sigma : List (List ℚ))
    (t1 t2 : ℚ) (h1 : 0 ≤ t1) (h2 : t1 ≤ 1) (h3 : 0 ≤ t2) (h4 : t2 ≤ 1) :
    optimize_portfolio solver tickers mu sigma t1 =
      optimize_portfolio solver tickers mu sigma t2 := rfl

/-- C8 (witness): identical optimizer output at the extreme tolerances 0
and 1 on a concrete two-asset instance. -/
theorem c8_risk_tolerance_independent_witness :
    optimize_portfolio (fun _ _ => ⟨[1, 0], 1/10, 1/10, 1⟩)
        ["A", "B"] [1/10, 1/5] [[1, 0], [0, 1]] 0 =
      optimize_portfolio (fun _ _ => ⟨[1, 0], 1/10, 1/10, 1⟩)
        ["A", "B"] [1/10, 1/5] [[1, 0], [0, 1]] 1 :=
  c8_risk_tolerance_independent _ _ _ _ 0 1
    (by norm_num) (by norm_num) (by norm_num) (by norm_num)

/-! ### Claim C10 -/

/-- C10: the weights mapping returned by `optimize_portfolio` keeps every
input ticker as a key — `clean_weights` zeroes small weights in place and
never drops entries — and consequently a zero-weight ticker still counts as
held by every downstream stage that filters columns by key membership in the
weights mapping (as `compute_contribution_to_risk` does via `heldCols`). -/
theorem c10_weights_keep_all_tickers
    (solver : List ℚ → List (List ℚ) → SolverOut)
    (tickers : List String) (mu : List ℚ) (sigma : List (List ℚ)) (rt : ℚ)
    (hlen : (solver mu sigma).weights.length = tickers.length) :
    ((optimize_portfolio solver tickers mu sigma rt).weights.map Prod.fst) = tickers ∧
    ∀ (rets : List (String × List ℚ)) (t : String),
      t ∈ rets.map Prod.fst → t ∈ tickers →
      t ∈ (heldCols rets
            ((optimize_portfolio solver tickers mu sigma rt).weights)).map Prod.fst := by
  have hkeys :
      ((optimize_portfolio solver tickers mu sigma rt).weights.map Prod.fst) = tickers := by
    show ((tickers.zip (clean_weights (1/100) (solver mu sigma).weights)).map Prod.fst)
      = tickers
    apply List.map_fst_zip
    rw [clean_weights, List.length_map, hlen]
  refine ⟨hkeys, ?_⟩
  intro rets t htr htk
  rw [← hkeys] at htk
  have hsome := lookup_isSome_of_mem_keys _ t htk
  rcases List.mem_map.mp htr with ⟨cNm, hc, hct⟩
  refine List.mem_map.mpr ⟨cNm, ?_, hct⟩
  refine List.mem_filter.mpr ⟨hc, ?_⟩
  rw [hct]
  exact hsome

/-- C10 (witness): on tickers ["A", "B"] with solver output
`[0.995, 0.005]`, ticker "B" is zeroed by the cutoff yet remains a key of
the weights mapping and is held by the contribution-to-risk column filter. -/
theorem c10_weights_keep_all_tickers_witness :
    ((optimize_portfolio (fun _ _ => ⟨[199/200, 1/200], 1/10, 3/20, 1/2⟩)
        ["A", "B"] [1/10, 1/10] [[1, 0], [0, 1]] (1/2)).weights.map Prod.fst)
      = ["A", "B"] ∧
    "B" ∈ (heldCols [("A", [1, 2]), ("B", [2, 3])]
        ((optimize_portfolio (fun _ _ => ⟨[199/200, 1/200], 1/10, 3/20, 1/2⟩)
          ["A", "B"] [1/10, 1/10] [[1, 0], [0, 1]] (1/2)).weights)).map Prod.fst := by
  have h := c10_weights_keep_all_tickers
    (fun _ _ => ⟨[199/200, 1/200], 1/10, 3/20, 1/2⟩)
    ["A", "B"] [1/10, 1/10] [[1, 0], [0, 1]] (1/2) rfl
  exact ⟨h.1, h.2 [("A", [1, 2]), ("B", [2, 3])] "B" (by simp) (by simp)⟩

/-! ### Claim C9 -/

/-- C9: whenever fewer than 2 tickers survive the 80%-completeness filter
(forward/backward filling never changes the column count), the pipeline
stops at `fetch_price_history` with the `ValueError` whose message names the
"at least 2 valid tickers" requirement; the error is returned for EVERY
downstream continuation, so no estimation, optimization or analytics stage
is reached. -/
theorem c9_insufficient_tickers {α : Type}
    (downstream : List (String × List (Option ℚ)) → α)
    (nRows : ℕ) (cols : List (String × List (Option ℚ)))
    (h : (keptCols nRows cols).length < 2) :
    generate_portfolio downstream nRows cols =
      Except.error ("Only " ++ toString (keptCols nRows cols).length ++
        " tickers survived data cleaning. Need at least 2 valid tickers for optimization.") ∧
    ∃ a b : String,
      ("Only " ++ toString (keptCols nRows cols).length ++
        " tickers survived data cleaning. Need at least 2 valid tickers for optimization.")
        = a ++ "at least 2 valid tickers" ++ b := by
  constructor
  · simp only [generate_portfolio, fetch_clean, List.length_map]
    rw [if_pos h]
    rfl
  · refine ⟨"Only " ++ toString (keptCols nRows cols).length ++
      " tickers survived data cleaning. Need ", " for optimization.", ?_⟩
    have hsplit : " tickers survived data cleaning. Need at least 2 valid tickers for optimization."
        = " tickers survived data cleaning. Need " ++ "at least 2 valid tickers"
          ++ " for optimization." := rfl
    rw [hsplit]
    simp [String.append_assoc]

/-- C9 (witness): a five-row price table where ticker "A" has three missing
observations (60% completeness, below the 80% threshold) and only "B"
survives: the pipeline errors for an arbitrary downstream stage. -/
theorem c9_insufficient_tickers_witness :
    generate_portfolio (fun cleaned => cleaned.length)
        5 [("A", [some 1, some 1, none, none, none]),
           ("B", [some 1, some 1, some 1, some 1, some 1])] =
      Except.error ("Only " ++ toString 1 ++
        " tickers survived data cleaning. Need at least 2 valid tickers for optimization.") := by
  have h := c9_insufficient_tickers (fun cleaned => cleaned.length)
    5 [("A", [some 1, some 1, none, none, none]),
       ("B", [some 1, some 1, some 1, some 1, some 1])]
    (by decide)
  rw [h.1]
  have hk : (keptCols 5 [("A", [some (1:ℚ), some 1, none, none, none]),
      ("B", [some 1, some 1, some 1, some 1, some 1])]).length = 1 := by decide
  rw [hk]

/-! ### Claim C6 -/

/-- C6 (counterexample): on a price history with constant prices the sample
covariance is the zero matrix, so `port_var = 0` and the code divides by the
epsilon floor `(1e-8)²` instead: with two held tickers at weight 1/2 each,
every contribution is 0 and they sum to 0, not to 100 ± 0.1. -/
theorem c6_counterexample :
    (heldCols (retsOf [("A", [1, 1, 1]), ("B", [1, 1, 1])])
        [("A", (1:ℚ)/2), ("B", 1/2)]).length = 2 ∧
    compute_contribution_to_risk [("A", [1, 1, 1]), ("B", [1, 1, 1])]
        [("A", 1/2), ("B", 1/2)] = [("A", 0), ("B", 0)] ∧
    ¬ |(([("A", (0:ℚ)), ("B", 0)]).map Prod.snd).sum - 100| ≤ 1/10 := by
  refine ⟨?_, ?_, ?_⟩
  · simp [heldCols, retsOf, pct_change, List.lookup]
  · simp [compute_contribution_to_risk, heldCols, heldW, covHeld, marginalRisk,
      portVar, portVolSq, contribRaw, retsOf, pct_change, covar, mean, dot,
      roundTo, roundHalfEven, List.lookup]
  · intro hcon
    have hsum : (([("A", (0:ℚ)), ("B", 0)]).map Prod.snd).sum - 100 = -100 := by
      simp
    rw [hsum, abs_neg, abs_of_nonneg (by norm_num : (0:ℚ) ≤ 100)] at hcon
    norm_num at hcon

/-- C6 (amended): with fewer than 2 held tickers each held ticker gets
exactly 100.  With at least 2 held tickers AND positive portfolio variance,
the unrounded Euler contributions `wᵢ(Σw)ᵢ/σ_p² × 100` sum to exactly 100,
and the reported (2-decimal-rounded) contributions sum to 100 within
`0.005` per held ticker; when the portfolio variance is zero (degenerate
returns) the reported contributions instead sum to 0, violating the
100 ± 0.1 budget. -/
theorem c6_contribution_sum (cols : List (String × List ℚ))
    (weights : List (String × ℚ)) :
    ((heldCols (retsOf cols) weights).length < 2 →
      compute_contribution_to_risk cols weights =
        (heldCols (retsOf cols) weights).map (fun c => (c.1, 100))) ∧
    (2 ≤ (heldCols (retsOf cols) weights).length →
     0 < portVar (retsOf cols) weights →
      (contribRaw (retsOf cols) weights).sum = 100 ∧
      |((compute_contribution_to_risk cols weights).map Prod.snd).sum - 100|
        ≤ (heldCols (retsOf cols) weights).length * (1/200)) := by
  constructor
  · intro h
    unfold compute_contribution_to_risk
    rw [if_pos h]
  · intro h2 hpv
    have hnlt : ¬ (heldCols (retsOf cols) weights).length < 2 := not_lt.mpr h2
    have hsq : portVolSq (retsOf cols) weights = portVar (retsOf cols) weights := by
      unfold portVolSq
      rw [if_pos hpv]
    have hraw : (contribRaw (retsOf cols) weights).sum = 100 := by
      unfold contribRaw
      rw [hsq, zipWith_scaled_sum (portVar (retsOf cols) weights)
        (heldW (retsOf cols) weights) (marginalRisk (retsOf cols) weights)]
      show portVar (retsOf cols) weights / portVar (retsOf cols) weights * 100 = 100
      rw [div_self (ne_of_gt hpv)]
      norm_num
    refine ⟨hraw, ?_⟩
    have hres : compute_contribution_to_risk cols weights =
        List.zipWith (fun c x => (c.1, roundTo 2 x)) (heldCols (retsOf cols) weights)
          (contribRaw (retsOf cols) weights) := by
      unfold compute_contribution_to_risk
      rw [if_neg hnlt]
    have hlen : (heldCols (retsOf cols) weights).length
        = (contribRaw (retsOf cols) weights).length := by
      simp [contribRaw, heldW, marginalRisk, covHeld]
    have hmap : (compute_contribution_to_risk cols weights).map Prod.snd
        = (contribRaw (retsOf cols) weights).map (roundTo 2) := by
      rw [hres, List.map_zipWith]
      exact zipWith_snd_map (roundTo 2) _ _ hlen
    rw [hmap, hlen]
    have hsum := sum_map_abs_le (roundTo 2) (1/200) (contribRaw (retsOf cols) weights)
      (fun x _ => le_trans (abs_roundTo_sub 2 x) (by norm_num))
    rw [hraw] at hsum
    exact hsum

/-- C6 (witness): a two-asset history with non-degenerate returns held at
weight 1/2 each: positive portfolio variance, raw contributions summing to
exactly 100, rounded contributions within 2 × 0.005 of 100. -/
theorem c6_contribution_sum_witness :
    (contribRaw (retsOf [("A", [1, 2, 1]), ("B", [1, 2, 4])])
        [("A", (1:ℚ)/2), ("B", 1/2)]).sum = 100 ∧
    |((compute_contribution_to_risk [("A", [1, 2, 1]), ("B", [1, 2, 4])]
        [("A", (1:ℚ)/2), ("B", 1/2)]).map Prod.snd).sum - 100|
      ≤ (heldCols (retsOf [("A", [1, 2, 1]), ("B", [1, 2, 4])])
          [("A", (1:ℚ)/2), ("B", 1/2)]).length * (1/200) := by
  have h := (c6_contribution_sum [("A", [1, 2, 1]), ("B", [1, 2, 4])]
      [("A", (1:ℚ)/2), ("B", 1/2)]).2
    (by simp [heldCols, retsOf, pct_change, List.lookup])
    (by simp [portVar, heldCols, heldW, covHeld, marginalRisk, retsOf,
          pct_change, covar, mean, dot, List.lookup]
        norm_num)
  exact h

/-! ### Claim C5 -/

/-- C5: `compute_var` reports the non-negative magnitudes
`investment·|mu/252 + z·sigma/√252|` and `investment·|mu + z·sigma|` with
`z = Φ⁻¹(1 − confidence)`.  For confidence 0.95 the true quantile
`Φ⁻¹(0.05) ≈ −1.6449` lies in [−1.65, −1.64] and `√252 ≈ 15.8745` lies in
[15.87, 15.88]; under those bounds, with `mu = 0.10`, `sigma = 0.20` and
investment 100000, the daily VaR is strictly positive and the annual VaR is
within 101 of 22 900. -/
theorem c5_value_at_risk (z s : ℚ)
    (hz1 : -(33/20) ≤ z) (hz2 : z ≤ -(41/25))
    (hs1 : 1587/100 ≤ s) (hs2 : s ≤ 1588/100) :
    (∀ mu sig inv : ℚ, 0 ≤ inv →
      0 ≤ (compute_var z s mu sig inv).1 ∧ 0 ≤ (compute_var z s mu sig inv).2) ∧
    0 < (compute_var z s (1/10) (1/5) 100000).1 ∧
    |(compute_var z s (1/10) (1/5) 100000).2 - 22900| ≤ 101 := by
  have hspos : (0 : ℚ) < s := lt_of_lt_of_le (by norm_num) hs1
  refine ⟨fun mu sig inv hinv => ⟨?_, ?_⟩, ?_, ?_⟩
  · exact roundTo_nonneg 2 _ (mul_nonneg hinv (abs_nonneg _))
  · exact roundTo_nonneg 2 _ (mul_nonneg hinv (abs_nonneg _))
  · -- daily VaR at the scenario inputs
    show 0 < roundTo 2 (100000 * |1/10 / 252 + z * (1/5 / s)|)
    have hslo : (1 : ℚ)/5/s ≤ 1/5/(1587/100) :=
      div_le_div_of_nonneg_left (by norm_num) (by norm_num) hs1
    have hshi : (1 : ℚ)/5/(1588/100) ≤ 1/5/s :=
      div_le_div_of_nonneg_left (by norm_num) hspos hs2
    have hdpos : (0 : ℚ) < 1/5/s := by positivity
    have hzd_hi : z * (1/5/s) ≤ -(41/25) * (1/5/(1588/100)) :=
      le_trans (mul_le_mul_of_nonneg_right hz2 (le_of_lt hdpos))
        (mul_le_mul_of_nonpos_left hshi (by norm_num))
    have hzd_lo : -(33/20) * (1/5/(1587/100)) ≤ z * (1/5/s) :=
      le_trans (mul_le_mul_of_nonpos_left hslo (by norm_num))
        (mul_le_mul_of_nonneg_right hz1 (le_of_lt hdpos))
    have he_neg : (1 : ℚ)/10 / 252 + z * (1/5/s) < 0 := by
      have : -(41/25) * ((1:ℚ)/5/(1588/100)) = -(41/1985) := by norm_num
      rw [this] at hzd_hi
      linarith
    have habs : |(1 : ℚ)/10 / 252 + z * (1/5/s)| = -(1/10 / 252 + z * (1/5/s)) :=
      abs_of_neg he_neg
    have hraw_lo : (2025 : ℚ) ≤ 100000 * |1/10 / 252 + z * (1/5/s)| := by
      rw [habs]
      have : -(41/25) * ((1:ℚ)/5/(1588/100)) = -(41/1985) := by norm_num
      rw [this] at hzd_hi
      nlinarith
    have hr := abs_le.mp (abs_roundTo_sub 2 (100000 * |1/10 / 252 + z * (1/5/s)|))
    have : (1 : ℚ) / (2 * 10 ^ 2) = 1/200 := by norm_num
    rw [this] at hr
    linarith [hr.1, hr.2]
  · -- annual VaR at the scenario inputs
    show |roundTo 2 (100000 * |1/10 + z * (1/5)|) - 22900| ≤ 101
    have hz5_hi : z * (1/5) ≤ -(41/125) := by
      have := mul_le_mul_of_nonneg_right hz2 (by norm_num : (0:ℚ) ≤ 1/5)
      linarith
    have hz5_lo : -(33/100) ≤ z * (1/5) := by
      have := mul_le_mul_of_nonneg_right hz1 (by norm_num : (0:ℚ) ≤ 1/5)
      linarith
    have he_neg : (1 : ℚ)/10 + z * (1/5) < 0 := by linarith
    have habs : |(1 : ℚ)/10 + z * (1/5)| = -(1/10 + z * (1/5)) := abs_of_neg he_neg
    have hraw_lo : (22800 : ℚ) ≤ 100000 * |1/10 + z * (1/5)| := by
      rw [habs]
      nlinarith
    have hraw_hi : 100000 * |(1 : ℚ)/10 + z * (1/5)| ≤ 23000 := by
      rw [habs]
      nlinarith
    have hr := abs_le.mp (abs_roundTo_sub 2 (100000 * |1/10 + z * (1/5)|))
    have h200 : (1 : ℚ) / (2 * 10 ^ 2) = 1/200 := by norm_num
    rw [h200] at hr
    rw [abs_le]
    constructor <;> linarith [hr.1, hr.2]

/-- C5 (witness): the VaR facts at the representative quantile −1.645 and
√252 ≈ 15.875: daily VaR positive and annual VaR within 101 of 22 900. -/
theorem c5_value_at_risk_witness :
    0 < (compute_var (-(1645/1000)) (127/8) (1/10) (1/5) 100000).1 ∧
    |(compute_var (-(1645/1000)) (127/8) (1/10) (1/5) 100000).2 - 22900| ≤ 101 := by
  have h := c5_value_at_risk (-(1645/1000)) (127/8)
    (by norm_num) (by norm_num) (by norm_num) (by norm_num)
  exact ⟨h.2.1, h.2.2⟩

/-! ### Claim C7 -/

theorem linspace_pairwise (a b : ℚ) (n : ℕ) (h : a ≤ b) :
    List.Pairwise (· ≤ ·) (linspace a b n) := by
  unfold linspace
  split_ifs with h0 h1
  · exact List.Pairwise.nil
  · simp
  · have hn2 : 2 ≤ n := by omega
    have hden : (0 : ℚ) < (n : ℚ) - 1 := by
      have : (2 : ℚ) ≤ n := by exact_mod_cast hn2
      linarith
    refine List.pairwise_map.mpr ((List.pairwise_lt_range n).imp ?_)
    intro i j hij
    have hij2 : (i : ℚ) ≤ j := by exact_mod_cast le_of_lt hij
    have hba : (0 : ℚ) ≤ b - a := sub_nonneg.mpr h
    have hstep : (b - a) * i / ((n : ℚ) - 1) ≤ (b - a) * j / ((n : ℚ) - 1) :=
      div_le_div_of_nonneg_right (mul_le_mul_of_nonneg_left hij2 hba) (le_of_lt hden)
    linarith

theorem linspace_pairwise_ge (a b : ℚ) (n : ℕ) (h : b ≤ a) :
    List.Pairwise (fun x y => y ≤ x) (linspace a b n) := by
  unfold linspace
  split_ifs with h0 h1
  · exact List.Pairwise.nil
  · simp
  · have hn2 : 2 ≤ n := by omega
    have hden : (0 : ℚ) < (n : ℚ) - 1 := by
      have : (2 : ℚ) ≤ n := by exact_mod_cast hn2
      linarith
    refine List.pairwise_map.mpr ((List.pairwise_lt_range n).imp ?_)
    intro i j hij
    have hij2 : (i : ℚ) ≤ j := by exact_mod_cast le_of_lt hij
    have hba : b - a ≤ (0 : ℚ) := sub_nonpos.mpr h
    have hstep : (b - a) * j / ((n : ℚ) - 1) ≤ (b - a) * i / ((n : ℚ) - 1) :=
      div_le_div_of_nonneg_right (mul_le_mul_of_nonpos_left hij2 hba) (le_of_lt hden)
    linarith

/-- C7 (amended): every returned frontier point comes from a successful
solve at one of the uniformly swept targets (infeasible or failing targets
are omitted, and each surviving point is the sub-problem's minimum-variance
solution at its own target return).  When `1.05·min(mu) ≤ 0.95·max(mu)` the
sweep is ascending and the returned list is ordered by non-decreasing
return; when `1.05·min(mu) ≥ 0.95·max(mu)` the sweep runs downward and the
returned list is ordered by non-increasing return instead.  Points whose
target lies below the minimum-variance return can still be dominated by
later points. -/
theorem c7_frontier (solve : ℚ → Option (ℚ × ℚ)) (mu : List ℚ) (n : ℕ)
    (hFaith : ∀ t p, solve t = some p → p.1 = t) :
    (∀ q ∈ compute_efficient_frontier solve mu n,
      ∃ t ∈ linspace (listMin mu * (105/100)) (listMax mu * (95/100)) n,
        ∃ p, solve t = some p ∧ q = (roundTo 6 p.1, roundTo 6 p.2)) ∧
    (listMin mu * (105/100) ≤ listMax mu * (95/100) →
      List.Chain' (fun p q : ℚ × ℚ => p.1 ≤ q.1)
        (compute_efficient_frontier solve mu n)) ∧
    (listMax mu * (95/100) ≤ listMin mu * (105/100) →
      List.Chain' (fun p q : ℚ × ℚ => q.1 ≤ p.1)
        (compute_efficient_frontier solve mu n)) := by
  refine ⟨?_, ?_, ?_⟩
  · intro q hq
    unfold compute_efficient_frontier at hq
    rcases List.mem_filterMap.mp hq with ⟨t, ht, hft⟩
    rcases Option.map_eq_some'.mp hft with ⟨p, hp, hq'⟩
    exact ⟨t, ht, p, hp, hq'.symm⟩
  · intro hle
    apply List.Pairwise.chain'
    unfold compute_efficient_frontier
    rw [List.pairwise_filterMap]
    refine (linspace_pairwise _ _ n hle).imp ?_
    intro t1 t2 h12 q1 hq1 q2 hq2
    rw [Option.mem_def] at hq1 hq2
    rcases Option.map_eq_some'.mp hq1 with ⟨p1, hp1, he1⟩
    rcases Option.map_eq_some'.mp hq2 with ⟨p2, hp2, he2⟩
    have h1 : p1.1 = t1 := hFaith t1 p1 hp1
    have h2 : p2.1 = t2 := hFaith t2 p2 hp2
    rw [← he1, ← he2]
    show roundTo 6 p1.1 ≤ roundTo 6 p2.1
    rw [h1, h2]
    exact roundTo_mono 6 t1 t2 h12
  · intro hge
    apply List.Pairwise.chain'
    unfold compute_efficient_frontier
    rw [List.pairwise_filterMap]
    refine (linspace_pairwise_ge _ _ n hge).imp ?_
    intro t1 t2 h12 q1 hq1 q2 hq2
    rw [Option.mem_def] at hq1 hq2
    rcases Option.map_eq_some'.mp hq1 with ⟨p1, hp1, he1⟩
    rcases Option.map_eq_some'.mp hq2 with ⟨p2, hp2, he2⟩
    have h1 : p1.1 = t1 := hFaith t1 p1 hp1
    have h2 : p2.1 = t2 := hFaith t2 p2 hp2
    rw [← he1, ← he2]
    show roundTo 6 p2.1 ≤ roundTo 6 p1.1
    rw [h1, h2]
    exact roundTo_mono 6 t2 t1 h12

/-- C7 (witness): with the spec-modelled sub-problem solvers, the frontier
on mu = (0.08, 0.12) (ascending sweep) is ordered by non-decreasing return,
and the frontier on mu = (0.095, 0.10) (descending sweep) is ordered by
non-increasing return. -/
theorem c7_frontier_witness :
    List.Chain' (fun p q : ℚ × ℚ => p.1 ≤ q.1)
      (compute_efficient_frontier solveTwoAsset [2/25, 3/25] 2) ∧
    List.Chain' (fun p q : ℚ × ℚ => q.1 ≤ p.1)
      (compute_efficient_frontier solveTwoAssetDesc [19/200, 1/10] 2) := by
  constructor
  · have hFaith : ∀ t p, solveTwoAsset t = some p → p.1 = t := by
      intro t p hp
      unfold solveTwoAsset at hp
      split_ifs at hp with hc
      rw [← Option.some_inj.mp hp]
    have h := c7_frontier solveTwoAsset [2/25, 3/25] 2 hFaith
    apply h.2.1
    norm_num [listMin, listMax, min_def, max_def]
  · have hFaith : ∀ t p, solveTwoAssetDesc t = some p → p.1 = t := by
      intro t p hp
      unfold solveTwoAssetDesc at hp
      split_ifs at hp with hc
      rw [← Option.some_inj.mp hp]
    have h := c7_frontier solveTwoAssetDesc [19/200, 1/10] 2 hFaith
    apply h.2.2
    norm_num [listMin, listMax, min_def, max_def]

/-- C7 (counterexample): two failures of the claim as stated.  First, the
sweep starts at `1.05·min(mu)`, below the minimum-variance portfolio's
return, so the frontier contains points of the inefficient lower branch:
for mu = (0.08, 0.12), Sigma = I and 2 points, the second frontier point
(return 0.114, variance 0.745) dominates the first (return 0.084, variance
0.82) — refuting "no point on the frontier dominates another".  Second, for
mu = (0.095, 0.10) the sweep bounds invert (1.05·0.095 = 0.09975 >
0.095 = 0.95·0.10), both targets are feasible, and the returned list
[(0.09975, ·), (0.095, ·)] is strictly DECREASING in return — refuting
"ordered by non-decreasing target return". -/
theorem c7_counterexample :
    compute_efficient_frontier solveTwoAsset [2/25, 3/25] 2 =
      [(21/250, 41/50), (57/500, 149/200)] ∧
    Dominates (57/500, 149/200) (21/250, 41/50) ∧
    compute_efficient_frontier solveTwoAssetDesc [19/200, 1/10] 2 =
      [(399/4000, 181/200), (19/200, 1)] ∧
    ¬ List.Chain' (fun p q : ℚ × ℚ => p.1 ≤ q.1)
        (compute_efficient_frontier solveTwoAssetDesc [19/200, 1/10] 2) := by
  have hdesc : compute_efficient_frontier solveTwoAssetDesc [19/200, 1/10] 2 =
      [(399/4000, 181/200), (19/200, 1)] := by
    have hmin : listMin [19/200, (1:ℚ)/10] * (105/100) = 399/4000 := by
      norm_num [listMin, min_def]
    have hmax : listMax [19/200, (1:ℚ)/10] * (95/100) = 19/200 := by
      norm_num [listMax, max_def]
    have hlin : linspace (399/4000) (19/200) 2 = [399/4000, 19/200] := by
      norm_num [linspace, List.range_succ]
    have h1 : solveTwoAssetDesc (399/4000) = some (399/4000, 181/200) := by
      norm_num [solveTwoAssetDesc]
    have h2 : solveTwoAssetDesc (19/200) = some (19/200, 1) := by
      norm_num [solveTwoAssetDesc]
    unfold compute_efficient_frontier
    rw [hmin, hmax, hlin]
    simp only [List.filterMap_cons, List.filterMap_nil, h1, h2, Option.map_some']
    norm_num [roundTo, roundHalfEven]
  refine ⟨?_, ?_, hdesc, ?_⟩
  · have hmin : listMin [2/25, (3:ℚ)/25] * (105/100) = 21/250 := by
      norm_num [listMin, min_def]
    have hmax : listMax [2/25, (3:ℚ)/25] * (95/100) = 57/500 := by
      norm_num [listMax, max_def]
    have hlin : linspace (21/250) (57/500) 2 = [21/250, 57/500] := by
      norm_num [linspace, List.range_succ]
    have h1 : solveTwoAsset (21/250) = some (21/250, 41/50) := by
      norm_num [solveTwoAsset]
    have h2 : solveTwoAsset (57/500) = some (57/500, 149/200) := by
      norm_num [solveTwoAsset]
    unfold compute_efficient_frontier
    rw [hmin, hmax, hlin]
    simp only [List.filterMap_cons, List.filterMap_nil, h1, h2, Option.map_some']
    norm_num [roundTo, roundHalfEven]
  · unfold Dominates
    norm_num
  · rw [hdesc]
    intro hch
    have hle : (399 : ℚ)/4000 ≤ 19/200 := by
      have := List.chain'_cons.mp hch
      exact this.1
    norm_num at hle

end Ares

